import Mathlib

/-!
Verification of the compy lexing/parsing toolkit.

Shallow embedding of `src/compy.py` (lexer engine + parser-combinator core)
and `src/demo.py` (arithmetic-expression demo grammar), with theorems about
the behaviour claimed in the specification.

Conventions of the embedding:
* Python `str` text is modelled as `List Char`.
* A compiled Python regex applied via `re.match` is modelled as a function
  `List Char → Option (List Char)` returning the matched prefix (the `"^(...)"`
  anchoring that `add_regex`/`skip_regex` prepend is built into this reading,
  since `re.match` anchors at the start and the code only uses `m.group(0)`).
* Code that can raise (the out-of-range list index in `token`) or diverge
  (the lexer loops) is wrapped in `Option`: `none` models an exception or
  divergence, `some` an ordinary return.  Loops carry explicit fuel.
-/

namespace Compy

/-- The `Location` from compy.py: file/line/column of a token. -/
structure Location where
  file : String
  line : Nat
  column : Nat
deriving DecidableEq

/-- The `Token` from compy.py: a typed lexeme. -/
structure Token (T : Type) where
  type : T
  value : List Char
  location : Location
deriving DecidableEq

/-- The `got` field of a parsing failure: either the `EOF` sentinel token or an
ordinary token (in compy.py, `EOF` is a field-less subclass of `Token`). -/
inductive Got (T : Type) where
  | eof : Got T
  | tok : Token T → Got T
deriving DecidableEq

/-- The `ParsingResult` from compy.py: the union of `ParsingSuccess` (value and
remaining tokens) and `ParsingFailure` (expected token types and actual token). -/
inductive ParsingResult (T : Type) (α : Type) where
  | success (value : α) (rest : List (Token T)) : ParsingResult T α
  | failure (expected : List T) (got : Got T) : ParsingResult T α
deriving DecidableEq

/-- The `Seq` from compy.py: the transient pair produced by `sequence`. -/
structure Seq (α β : Type) where
  left : α
  right : β
deriving DecidableEq

/-- A `Parser` from compy.py is just its `parse` function.  The `Option` layer
records whether the Python call returns normally (`some`) or raises (`none`). -/
abbrev PFun (T : Type) (α : Type) := List (Token T) → Option (ParsingResult T α)

/-- The `Parser.sequence_right` (`>>`): run `self`; on failure propagate; on success
run `parser` on the leftover tokens and return its result as-is. -/
def sequence_right (p : PFun T α) (q : PFun T β) : PFun T β := fun tokens =>
  match p tokens with
  | none => none
  | some (.failure exp got) => some (.failure exp got)
  | some (.success _ rest) => q rest

/-- The `Parser.sequence_left` (`<<`): run `self`; on failure propagate; on success
run `parser` on the leftover; on its failure propagate, on success keep the
first value with the second leftover. -/
def sequence_left (p : PFun T α) (q : PFun T β) : PFun T α := fun tokens =>
  match p tokens with
  | none => none
  | some (.failure exp got) => some (.failure exp got)
  | some (.success x rest) =>
    match q rest with
    | none => none
    | some (.failure exp got) => some (.failure exp got)
    | some (.success _ rest2) => some (.success x rest2)

/-- The `Parser.sequence` (`^`): like `sequence_left` but keeps both values in a `Seq`. -/
def sequence (p : PFun T α) (q : PFun T β) : PFun T (Seq α β) := fun tokens =>
  match p tokens with
  | none => none
  | some (.failure exp got) => some (.failure exp got)
  | some (.success x rest) =>
    match q rest with
    | none => none
    | some (.failure exp got) => some (.failure exp got)
    | some (.success y rest2) => some (.success (Seq.mk x y) rest2)

/-- The `Parser.alt` (`|`): run `self`; on success return it; on failure run
`parser` on the original tokens; on its success return it, on failure merge the
two expected lists (first's then second's) with the second's `got`. -/
def alt (p : PFun T α) (q : PFun T α) : PFun T α := fun tokens =>
  match p tokens with
  | none => none
  | some (.success x rest) => some (.success x rest)
  | some (.failure exp1 _) =>
    match q tokens with
    | none => none
    | some (.failure exp2 got) => some (.failure (exp1 ++ exp2) got)
    | some (.success x rest) => some (.success x rest)

/-- The `SeqParser.map`: unpack the `Seq` produced by `sequence` through a binary
mapper; forward failures. -/
def map (p : PFun T (Seq α β)) (mapper : α → β → γ) : PFun T γ := fun tokens =>
  match p tokens with
  | none => none
  | some (.failure exp got) => some (.failure exp got)
  | some (.success s rest) => some (.success (mapper s.left s.right) rest)

/-- The `token(type, mapper)` from compy.py.  Note the source's third branch reads
`ParsingFailure([type], tokens[1])`: on a type mismatch it indexes the *second*
element, which raises `IndexError` (modelled by `none`) when the list has
exactly one token. -/
def token [DecidableEq T] (type : T) (mapper : List Char → α) : PFun T α := fun tokens =>
  match tokens with
  | [] => some (.failure [type] .eof)
  | t :: rest =>
    if t.type = type then some (.success (mapper t.value) rest)
    else
      match rest with
      | [] => none
      | u :: _ => some (.failure [type] (.tok u))

/-- The `singleton(type, value)` from compy.py: like `token` but with a fixed result
value, and its mismatch branch correctly reads `tokens[0]`. -/
def singleton [DecidableEq T] (type : T) (value : α) : PFun T α := fun tokens =>
  match tokens with
  | [] => some (.failure [type] .eof)
  | t :: rest =>
    if t.type = type then some (.success value rest)
    else some (.failure [type] (.tok t))

/-- The `lazy(parser_fn)` from compy.py: defer obtaining the parser to parse time. -/
def lazy (fn : Unit → PFun T α) : PFun T α := fun tokens =>
  fn () tokens

/-- The `ignore(type)` from compy.py: like `singleton` with a unit result. -/
def ignore [DecidableEq T] (type : T) : PFun T Unit := fun tokens =>
  match tokens with
  | [] => some (.failure [type] .eof)
  | t :: rest =>
    if t.type = type then some (.success () rest)
    else some (.failure [type] (.tok t))

/-- A compiled pattern as used through `re.match(regex, code)` in compy.py:
given the remaining text it returns the matched prefix, or `none` when the
pattern does not match at the start.  The `"^(...)"` wrapping added by
`add_regex`/`skip_regex` is absorbed into this prefix-matching reading. -/
abbrev Regex := List Char → Option (List Char)

/-- The `Lexer` from compy.py.  `regexes` and `strings` model the two Python dicts
as insertion-ordered association lists; the two skip stores are plain lists. -/
structure Lexer (T : Type) where
  regexes : List (T × Regex)
  strings : List (T × List Char)
  regex_skips : List Regex
  string_skips : List (List Char)

/-- Python `d[k] = v` on an insertion-ordered dict: an existing key keeps its
position and gets the new value; a new key is appended at the end. -/
def dictInsert [DecidableEq T] (d : List (T × V)) (k : T) (v : V) : List (T × V) :=
  match d with
  | [] => [(k, v)]
  | (k1, v1) :: rest =>
    if k1 = k then (k, v) :: rest else (k1, v1) :: dictInsert rest k v

/-- Python `d.get(k)` on the association-list model. -/
def dictLookup [DecidableEq T] (d : List (T × V)) (k : T) : Option V :=
  match d with
  | [] => none
  | (k1, v1) :: rest => if k1 = k then some v1 else dictLookup rest k

/-- The `Lexer.add_regex`: store the (anchored) pattern under its token type. -/
def Lexer.add_regex [DecidableEq T] (L : Lexer T) (type : T) (regex : Regex) : Lexer T :=
  Lexer.mk (dictInsert L.regexes type regex) L.strings L.regex_skips L.string_skips

/-- The `Lexer.add_str`: store the literal under its token type. -/
def Lexer.add_str [DecidableEq T] (L : Lexer T) (type : T) (string : List Char) : Lexer T :=
  Lexer.mk L.regexes (dictInsert L.strings type string) L.regex_skips L.string_skips

/-- The `Lexer.skip_regex`: append an (anchored) skip pattern. -/
def Lexer.skip_regex (L : Lexer T) (regex : Regex) : Lexer T :=
  Lexer.mk L.regexes L.strings (L.regex_skips ++ [regex]) L.string_skips

/-- The `Lexer.skip_string`: append a skip literal. -/
def Lexer.skip_string (L : Lexer T) (string : List Char) : Lexer T :=
  Lexer.mk L.regexes L.strings L.regex_skips (L.string_skips ++ [string])

/-- The `Lexer._increment_location`: advance line/column over consumed text;
a newline increments the line and resets the column to 1. -/
def incrementLocation (line column : Nat) (whole : List Char) : Nat × Nat :=
  whole.foldl (fun lc c => if c = '\n' then (lc.1 + 1, 1) else (lc.1, lc.2 + 1))
    (line, column)

/-- The mutable cursor of one `lex` call: current line, column, remaining text. -/
structure St where
  line : Nat
  column : Nat
  code : List Char
deriving DecidableEq

/-- Consume the matched text `whole`: advance line/column over it and drop
`len(whole)` characters from the remaining text (exactly as
`code = code[len(whole):]` does). -/
def consume (st : St) (whole : List Char) : St :=
  let lc := incrementLocation st.line st.column whole
  St.mk lc.1 lc.2 (st.code.drop whole.length)

/-- One traversal of the `for skip in self.regex_skips` loop inside
`_run_skips`: every matching skip consumes its match and sets the flag. -/
def regexSkipPass (skips : List Regex) (acc : Bool × St) : Bool × St :=
  match skips with
  | [] => acc
  | r :: rest =>
    match r acc.2.code with
    | none => regexSkipPass rest acc
    | some whole => regexSkipPass rest (true, consume acc.2 whole)

/-- One traversal of the `for skip in self.string_skips` loop inside
`_run_skips`: exact-prefix comparison, consuming on success. -/
def stringSkipPass (skips : List (List Char)) (acc : Bool × St) : Bool × St :=
  match skips with
  | [] => acc
  | s :: rest =>
    if s.isPrefixOf acc.2.code then stringSkipPass rest (true, consume acc.2 s)
    else stringSkipPass rest acc

/-- One full pass of the `while True` body of `_run_skips`: all regex skips,
then all string skips, starting with the matched flag reset to `false`. -/
def skipPass (L : Lexer T) (st : St) : Bool × St :=
  stringSkipPass L.string_skips (regexSkipPass L.regex_skips (false, st))

/-- The `Lexer._run_skips`: repeat full passes until one matches nothing.  The loop
can diverge (a nullable skip pattern always matches), so it carries fuel;
`none` models divergence. -/
def runSkips (L : Lexer T) : Nat → St → Option St
  | 0, _ => none
  | fuel + 1, st =>
    let r := skipPass L st
    if r.1 then runSkips L fuel r.2 else some r.2

/-- The `for type, regex in self.regexes.items()` loop of `Lexer.lex`: first
pattern matching the remaining text wins; its token records the location
captured before consuming. -/
def regexPhase (regexes : List (T × Regex)) (file : String) (st : St) :
    Option (Token T × St) :=
  match regexes with
  | [] => none
  | (type, r) :: rest =>
    match r st.code with
    | none => regexPhase rest file st
    | some whole =>
      some (Token.mk type whole (Location.mk file st.line st.column), consume st whole)

/-- The `for type, string in self.strings.items()` loop of `Lexer.lex`:
exact-prefix comparison, first match wins. -/
def stringPhase (strings : List (T × List Char)) (file : String) (st : St) :
    Option (Token T × St) :=
  match strings with
  | [] => none
  | (type, s) :: rest =>
    if s.isPrefixOf st.code then
      some (Token.mk type s (Location.mk file st.line st.column), consume st s)
    else stringPhase rest file st

/-- Result of one iteration's match phase: tokens appended, new cursor state,
and the `matched` flag. -/
structure StepOut (T : Type) where
  toks : List (Token T)
  st : St
  matched : Bool

/-- The match phase of one `Lexer.lex` iteration, exactly as in the source:
the string loop runs *after* the regex loop on the (possibly already advanced)
remaining text, regardless of whether a regex matched; `matched` is the single
flag both loops set. -/
def matchStep (L : Lexer T) (file : String) (st : St) : StepOut T :=
  match regexPhase L.regexes file st with
  | some (t1, st1) =>
    match stringPhase L.strings file st1 with
    | some (t2, st2) => StepOut.mk [t1, t2] st2 true
    | none => StepOut.mk [t1] st1 true
  | none =>
    match stringPhase L.strings file st with
    | some (t2, st2) => StepOut.mk [t2] st2 true
    | none => StepOut.mk [] st false

/-- The `LexingResult` from compy.py: the token list, or a `LexingError` carrying
its location and the offending character (the source interpolates that
character into the message string; the claims only depend on the character). -/
inductive LexOut (T : Type) where
  | ok (tokens : List (Token T)) : LexOut T
  | err (location : Location) (offending : Char) : LexOut T
deriving DecidableEq

/-- The `while len(code) > 0` loop of `Lexer.lex`, with fuel for the outer
loop; `none` models divergence.  `_run_skips` receives fuel `len(code) + 1`,
which is exact: with that much fuel it returns `some` precisely when the
Python loop terminates (passes that consume text strictly shorten the text,
and a matching pass that consumes nothing repeats the same state forever). -/
def lexLoop (L : Lexer T) (file : String) :
    Nat → St → List (Token T) → Option (LexOut T)
  | 0, _, _ => none
  | fuel + 1, st, tokens =>
    if st.code.isEmpty then some (.ok tokens)
    else
      match runSkips L (st.code.length + 1) st with
      | none => none
      | some st1 =>
        if st1.code.isEmpty then some (.ok tokens)
        else
          let step := matchStep L file st1
          if step.matched then lexLoop L file fuel step.st (tokens ++ step.toks)
          else some (.err (Location.mk file st1.line st1.column) (st1.code.headD ' '))

/-- The `Lexer.lex(file_path, code)`: start at line 1, column 1 with no tokens. -/
def lex (L : Lexer T) (fuel : Nat) (file : String) (code : List Char) :
    Option (LexOut T) :=
  lexLoop L file fuel (St.mk 1 1 code) []

/-- Characters matched by the regex class `\s`. -/
def isPySpace (c : Char) : Bool :=
  c = ' ' || c = '\t' || c = '\n' || c = '\r' || c = '\x0B' || c = '\x0C'

/-- The regex `\d+` as a prefix matcher: the longest nonempty digit prefix. -/
def digitsPat : Regex := fun s =>
  let m := s.takeWhile Char.isDigit
  if m.isEmpty then none else some m

/-- The regex `\s+` as a prefix matcher: the longest nonempty whitespace prefix. -/
def spacesPat : Regex := fun s =>
  let m := s.takeWhile isPySpace
  if m.isEmpty then none else some m

/-- A regex that is literal text (such as `"a"`): matches exactly itself. -/
def litPat (lit : List Char) : Regex := fun s =>
  if lit.isPrefixOf s then some lit else none

/-- A regex in the image of Python's `re` matches only nonempty prefixes when
it cannot match the empty string: it consumes at least one character and at
most the whole remaining text. -/
def GoodRegex (r : Regex) : Prop :=
  ∀ s whole, r s = some whole → 0 < whole.length ∧ whole.length ≤ s.length

/-- A lexer configuration whose patterns and skip patterns never match the
empty string and whose literals and skip literals are nonempty. -/
def GoodCfg (L : Lexer T) : Prop :=
  (∀ p ∈ L.regexes, GoodRegex p.2) ∧ (∀ p ∈ L.strings, p.2 ≠ [])
    ∧ (∀ r ∈ L.regex_skips, GoodRegex r) ∧ (∀ s ∈ L.string_skips, s ≠ [])

/-- Every match a pattern reports is a prefix of the text it was run on; true
of every pattern `re.match` can produce (`m.group(0)` is the matched prefix). -/
def ValidRegexes (L : Lexer T) : Prop :=
  ∀ p ∈ L.regexes, ∀ s whole, p.2 s = some whole → whole <+: s

/-- The `lex` diverges on this input for every amount of fuel. -/
def LexDivergesOn (L : Lexer T) (file : String) (code : List Char) : Prop :=
  ∀ fuel, lex L fuel file code = none

end Compy

namespace Demo

/-- The `TokenType` from demo.py. -/
inductive TokenType where
  | Int | Plus | Times | LeftParen | RightParen
deriving DecidableEq

/-- The `ExprNode` from demo.py: the union of `IntNode`, `TimesNode`, `PlusNode`. -/
inductive ExprNode where
  | IntNode (value : List Char) : ExprNode
  | TimesNode (left right : ExprNode) : ExprNode
  | PlusNode (left right : ExprNode) : ExprNode
deriving DecidableEq

/-- The `int_node` from demo.py. -/
def int_node (n : List Char) : ExprNode := ExprNode.IntNode n

/-- The `plus_node` from demo.py. -/
def plus_node (l r : ExprNode) : ExprNode := ExprNode.PlusNode l r

/-- The `times_node` from demo.py. -/
def times_node (l r : ExprNode) : ExprNode := ExprNode.TimesNode l r

/-- The demo lexer: `Int = \d+`, literals `+`, `*`, `(`, `)`, whitespace
skipped — registered in the order of demo.py. -/
def lexer : Compy.Lexer TokenType :=
  ((((((Compy.Lexer.mk [] [] [] []).add_regex .Int Compy.digitsPat).add_str
      .Plus (String.toList "+")).add_str .Times (String.toList "*")).add_str
      .LeftParen (String.toList "(")).add_str .RightParen
      (String.toList ")")).skip_regex Compy.spacesPat

/-- The named parsers of the demo grammar. -/
inductive Rule where
  | expr | plus | times | term | atom
deriving DecidableEq

/-- The demo grammar of demo.py, one equation per named parser:
`expr = plus | term`, `plus = (term << '+') ^ term |> plus_node`,
`times = (atom << '*') ^ atom |> times_node`, `term = times | atom`,
`atom = token(Int) | ('(' >> expr << ')')`.  Python builds these as a cyclic
parser-object graph whose cycles are broken by `lazy`; every `.parse` on a
`lazy` node re-enters its supplier at parse time, so the dynamic unfolding is
a finite tree whenever the parse terminates.  `fuel` bounds the depth of that
unfolding (each rule reference costs one unit, a conservative bound):
`run 0` models an unfolding that has not finished, and any terminating parse
is reproduced exactly at every sufficiently large fuel. -/
def run : Nat → Rule → Compy.PFun TokenType ExprNode
  | 0, _ => fun _ => none
  | fuel + 1, .expr => Compy.alt (run fuel .plus) (run fuel .term)
  | fuel + 1, .plus =>
    Compy.map (Compy.sequence (Compy.sequence_left (run fuel .term)
      (Compy.ignore .Plus)) (run fuel .term)) plus_node
  | fuel + 1, .times =>
    Compy.map (Compy.sequence (Compy.sequence_left (run fuel .atom)
      (Compy.ignore .Times)) (run fuel .atom)) times_node
  | fuel + 1, .term => Compy.alt (run fuel .times) (run fuel .atom)
  | fuel + 1, .atom =>
    Compy.alt (Compy.token .Int int_node)
      (Compy.sequence_left (Compy.sequence_right (Compy.ignore .LeftParen)
        (run fuel .expr)) (Compy.ignore .RightParen))

/-- The `int(s)` applied to a string of decimal digits. -/
def digitsToNat (s : List Char) : Nat :=
  s.foldl (fun a c => 10 * a + (c.toNat - 48)) 0

/-- The `eval_expr` from demo.py. -/
def eval_expr : ExprNode → Nat
  | .IntNode n => digitsToNat n
  | .TimesNode l r => eval_expr l * eval_expr r
  | .PlusNode l r => eval_expr l + eval_expr r

end Demo

/-- A small closed token-type enumeration used to instantiate the generic
definitions in concrete statements. -/
inductive TT where
  | A | B | C
deriving DecidableEq

/-- The empty lexer configuration over `TT`. -/
def emptyTT : Compy.Lexer TT := Compy.Lexer.mk [] [] [] []

/-- The literal-text regex `a`. -/
def patA : Compy.Regex := Compy.litPat (String.toList "a")

/-- The literal-text regex `b`. -/
def patB : Compy.Regex := Compy.litPat (String.toList "b")

/-- Lexer for the C3 counterexample: patterns `a` (type `A`) then `\d+`
(type `B`), and the literal string `1` (type `C`). -/
def cfg3 : Compy.Lexer TT :=
  ((emptyTT.add_regex TT.A patA).add_regex TT.B Compy.digitsPat).add_str
    TT.C (String.toList "1")

/-- Lexer for the C4 counterexample: `add_regex(A, "a")` then `add_regex(A, "b")`. -/
def cfg4 : Compy.Lexer TT :=
  (emptyTT.add_regex TT.A patA).add_regex TT.A patB

/-- The regex `a*`: the longest — possibly empty — prefix of `a`s, exactly
what `re.match("^(a*)", code)` yields; it matches every text. -/
def starA : Compy.Regex := fun s => some (s.takeWhile (fun c => c = 'a'))

/-- Lexer for the C8 counterexample: the single skip rule `skip_regex("a*")`. -/
def cfg8 : Compy.Lexer TT := emptyTT.skip_regex starA

/-- The parse functions built from the primitives `token`, `singleton`,
`ignore`, `lazy` and the combinators `sequence_right`, `sequence_left`,
`sequence`, `alt`, `map`: the closure of parsers the spec's invariants
quantify over. -/
inductive Built {T : Type} [DecidableEq T] : {α : Type} → Compy.PFun T α → Prop
  | token {α : Type} (type : T) (mapper : List Char → α) :
      Built (Compy.token type mapper)
  | singleton {α : Type} (type : T) (value : α) :
      Built (Compy.singleton type value)
  | ignore (type : T) : Built (Compy.ignore type)
  | lazy {α : Type} (fn : Unit → Compy.PFun T α) :
      Built (fn ()) → Built (Compy.lazy fn)
  | sequence_right {α β : Type} {p : Compy.PFun T α} {q : Compy.PFun T β} :
      Built p → Built q → Built (Compy.sequence_right p q)
  | sequence_left {α β : Type} {p : Compy.PFun T α} {q : Compy.PFun T β} :
      Built p → Built q → Built (Compy.sequence_left p q)
  | sequence {α β : Type} {p : Compy.PFun T α} {q : Compy.PFun T β} :
      Built p → Built q → Built (Compy.sequence p q)
  | alt {α : Type} {p q : Compy.PFun T α} :
      Built p → Built q → Built (Compy.alt p q)
  | map {α β γ : Type} {p : Compy.PFun T (Compy.Seq α β)} (mapper : α → β → γ) :
      Built p → Built (Compy.map p mapper)

/-- The token sequence demo.py's lexer produces for `"1 * (2 + 3)"`. -/
def demoTokens : List (Compy.Token Demo.TokenType) :=
  [Compy.Token.mk .Int (String.toList "1") (Compy.Location.mk "<stdin>" 1 1),
   Compy.Token.mk .Times (String.toList "*") (Compy.Location.mk "<stdin>" 1 3),
   Compy.Token.mk .LeftParen (String.toList "(") (Compy.Location.mk "<stdin>" 1 5),
   Compy.Token.mk .Int (String.toList "2") (Compy.Location.mk "<stdin>" 1 6),
   Compy.Token.mk .Plus (String.toList "+") (Compy.Location.mk "<stdin>" 1 8),
   Compy.Token.mk .Int (String.toList "3") (Compy.Location.mk "<stdin>" 1 10),
   Compy.Token.mk .RightParen (String.toList ")") (Compy.Location.mk "<stdin>" 1 11)]

/-- The value tree demo.py's parser produces for `"1 * (2 + 3)"`. -/
def demoTree : Demo.ExprNode :=
  .TimesNode (.IntNode (String.toList "1"))
    (.PlusNode (.IntNode (String.toList "2")) (.IntNode (String.toList "3")))

/-- The concatenation of the `value` fields of a token list, in order. -/
def joinVals {T : Type} (tokens : List (Compy.Token T)) : List Char :=
  tokens.foldr (fun t acc => t.value ++ acc) []

/-- A skip-free lexer for the C10 witness: `\d+` as type `A` and the literal
`+` as type `B`. -/
def cfgJoin : Compy.Lexer TT :=
  (emptyTT.add_regex TT.A Compy.digitsPat).add_str TT.B (String.toList "+")

/-- A concrete token of type `TT.A`. -/
def tokA : Compy.Token TT := Compy.Token.mk TT.A (String.toList "a") (Compy.Location.mk "f" 1 1)

/-- A concrete token of type `TT.C`. -/
def tokC : Compy.Token TT := Compy.Token.mk TT.C (String.toList "c") (Compy.Location.mk "f" 1 2)

/-- C1: evaluating `token` at a two-token input whose head mismatches: the code
returns `Failure([B], tokens[1])` — the *second* token, not the head `tokens[0]`
that the claim (and the spec's `token` description) require. -/
theorem c1_token_mismatch_got_is_second_token :
    Compy.token TT.B (fun s => s) [tokA, tokC]
      = some (.failure [TT.B] (.tok tokC)) ∧ tokC ≠ tokA := by
  constructor
  · rfl
  · decide

/-- C2: evaluating `token` at a one-token input whose head mismatches: the code
evaluates `tokens[1]` on a one-element list and raises `IndexError` (modelled by
`none`) instead of returning an ordinary `ParsingResult`. -/
theorem c2_token_single_mismatch_raises :
    Compy.token TT.B (fun s => s) [tokA] = none := rfl

/-- C9: on a non-empty token list whose head has the wrong type, `singleton` and
`ignore` both return `Failure([type], head)` — using the head token `tokens[0]`
— with no exception, including for one-element lists (`rest` arbitrary). -/
theorem c9_singleton_ignore_mismatch {T : Type} [DecidableEq T] (ty : T) {α : Type}
    (v : α) (t : Compy.Token T) (rest : List (Compy.Token T)) (h : t.type ≠ ty) :
    Compy.singleton ty v (t :: rest) = some (.failure [ty] (.tok t))
      ∧ Compy.ignore ty (t :: rest) = some (.failure [ty] (.tok t)) := by
  constructor
  · simp [Compy.singleton, h]
  · simp [Compy.ignore, h]

/-- Witness for C9 at a concrete one-element input. -/
theorem c9_singleton_ignore_mismatch_witness :
    Compy.singleton TT.B (0 : Nat) [tokA] = some (.failure [TT.B] (.tok tokA))
      ∧ Compy.ignore TT.B [tokA] = some (.failure [TT.B] (.tok tokA)) :=
  c9_singleton_ignore_mismatch TT.B 0 tokA [] (by decide)

/-- C5: behaviour of `alt`: a success of the first parser is returned unchanged
(the second parser does not influence the result); if the first fails and the
second succeeds on the original tokens, the second's success is returned
exactly; if both fail, the single failure's expected list is the first's
followed by the second's (duplicates retained) and its `got` is the second's. -/
theorem c5_alt_semantics {T : Type} {α : Type} (p q : Compy.PFun T α)
    (tokens : List (Compy.Token T)) :
    (∀ v r, p tokens = some (.success v r) →
        Compy.alt p q tokens = some (.success v r))
    ∧ (∀ e1 g1 v r, p tokens = some (.failure e1 g1) →
        q tokens = some (.success v r) →
        Compy.alt p q tokens = some (.success v r))
    ∧ (∀ e1 g1 e2 g2, p tokens = some (.failure e1 g1) →
        q tokens = some (.failure e2 g2) →
        Compy.alt p q tokens = some (.failure (e1 ++ e2) g2)) := by
  refine ⟨fun v r hp => ?_, fun e1 g1 v r hp hq => ?_, fun e1 g1 e2 g2 hp hq => ?_⟩
  · simp [Compy.alt, hp]
  · simp [Compy.alt, hp, hq]
  · simp [Compy.alt, hp, hq]

/-- Witness for C5: two concretely failing primitive parsers merge their
expected lists in order with the second's `got`. -/
theorem c5_alt_semantics_witness :
    Compy.alt (Compy.singleton TT.B (0 : Nat)) (Compy.singleton TT.C 1) [tokA]
      = some (.failure [TT.B, TT.C] (.tok tokA)) :=
  (c5_alt_semantics (Compy.singleton TT.B 0) (Compy.singleton TT.C 1) [tokA]).2.2
    [TT.B] (.tok tokA) [TT.C] (.tok tokA) (by decide) (by decide)

/-- Inserting twice under the same key is the same as inserting the second
value once: the first value is replaced, not kept. -/
theorem dictInsert_insert_same {T V : Type} [DecidableEq T]
    (d : List (T × V)) (k : T) (v1 v2 : V) :
    Compy.dictInsert (Compy.dictInsert d k v1) k v2 = Compy.dictInsert d k v2 := by
  induction d with
  | nil => simp [Compy.dictInsert]
  | cons hd tl ih =>
    obtain ⟨k1, w⟩ := hd
    by_cases h : k1 = k
    · simp [Compy.dictInsert, h]
    · simp [Compy.dictInsert, h, ih]

/-- Looking up the key just inserted yields the inserted value. -/
theorem dictLookup_insert_same {T V : Type} [DecidableEq T]
    (d : List (T × V)) (k : T) (v : V) :
    Compy.dictLookup (Compy.dictInsert d k v) k = some v := by
  induction d with
  | nil => simp [Compy.dictInsert, Compy.dictLookup]
  | cons hd tl ih =>
    obtain ⟨k1, w⟩ := hd
    by_cases h : k1 = k
    · simp [Compy.dictInsert, Compy.dictLookup, h]
    · simp [Compy.dictInsert, Compy.dictLookup, h, ih]

/-- Inserting a key not yet present appends the binding at the end. -/
theorem dictInsert_append_of_notMem {T V : Type} [DecidableEq T]
    (d : List (T × V)) (k : T) (v : V) (h : ∀ p ∈ d, p.1 ≠ k) :
    Compy.dictInsert d k v = d ++ [(k, v)] := by
  induction d with
  | nil => simp [Compy.dictInsert]
  | cons hd tl ih =>
    obtain ⟨k1, w⟩ := hd
    have h1 : k1 ≠ k := h (k1, w) (by simp)
    simp only [Compy.dictInsert, h1, if_false, List.cons_append, List.cons.injEq, true_and]
    exact ih (fun p hp => h p (by simp [hp]))

/-- C4 counterexample: after `add_regex(A, "a")` then `add_regex(A, "b")`,
lexing `"a"` fails with a lexing error even though the first registered
pattern matches it — so the lexer does *not* still try the first pattern;
the second registration replaced it. -/
theorem c4_counterexample :
    Compy.lex cfg4 2 "f" (String.toList "a")
        = some (.err (Compy.Location.mk "f" 1 1) 'a')
      ∧ patA (String.toList "a") = some (String.toList "a") := by
  exact ⟨rfl, rfl⟩

/-- C4 (amended): `add_regex`/`add_str` write to an insertion-ordered map
keyed by token type: a later registration for the *same* type replaces the
earlier pattern in place (the lexer then tries the new pattern for that type),
while a not-yet-registered type is appended at the end of the order. -/
theorem c4_registration_overwrite {T : Type} [DecidableEq T] (L : Compy.Lexer T)
    (ty : T) (p1 p2 : Compy.Regex) (s1 s2 : List Char) :
    ((L.add_regex ty p1).add_regex ty p2).regexes = (L.add_regex ty p2).regexes
    ∧ Compy.dictLookup ((L.add_regex ty p1).add_regex ty p2).regexes ty = some p2
    ∧ ((L.add_str ty s1).add_str ty s2).strings = (L.add_str ty s2).strings
    ∧ ((∀ p ∈ L.regexes, p.1 ≠ ty) →
        (L.add_regex ty p1).regexes = L.regexes ++ [(ty, p1)]) := by
  refine ⟨?_, ?_, ?_, ?_⟩
  · exact dictInsert_insert_same L.regexes ty p1 p2
  · exact dictLookup_insert_same (Compy.dictInsert L.regexes ty p1) ty p2
  · exact dictInsert_insert_same L.strings ty s1 s2
  · exact fun h => dictInsert_append_of_notMem L.regexes ty p1 h

/-- Witness for C4's amended claim on the concrete configuration of the
counterexample. -/
theorem c4_registration_overwrite_witness :
    ((emptyTT.add_regex TT.A patA).add_regex TT.A patB).regexes
        = (emptyTT.add_regex TT.A patB).regexes
      ∧ (emptyTT.add_regex TT.A patA).regexes = emptyTT.regexes ++ [(TT.A, patA)] :=
  ⟨(c4_registration_overwrite emptyTT TT.A patA patB
      (String.toList "x") (String.toList "y")).1,
   (c4_registration_overwrite emptyTT TT.A patA patB
      (String.toList "x") (String.toList "y")).2.2.2
      (by simp [emptyTT])⟩

/-- C3 counterexample: with patterns `a` (type `A`), `\d+` (type `B`) and the
literal `1` (type `C`), lexing `"a1"` emits the token at position 1:2 from the
*literal* registration `C`, although the registered pattern `\d+` matches the
text `"1"` at that position — both tokens are emitted in one loop iteration,
the string loop running right after the regex loop consumed `"a"`. -/
theorem c3_counterexample :
    Compy.lex cfg3 3 "f" (String.toList "a1")
        = some (.ok
            [Compy.Token.mk TT.A (String.toList "a") (Compy.Location.mk "f" 1 1),
             Compy.Token.mk TT.C (String.toList "1") (Compy.Location.mk "f" 1 2)])
      ∧ Compy.digitsPat (String.toList "1") = some (String.toList "1")
      ∧ cfg3.regexes.map Prod.fst = [TT.A, TT.B]
      ∧ cfg3.strings = [(TT.C, String.toList "1")] := by
  exact ⟨rfl, rfl, rfl, rfl⟩

/-- C6: lexing `"1 * (2 + 3)"` with the demo lexer yields exactly the seven
tokens `[Int "1", Times, LeftParen, Int "2", Plus, Int "3", RightParen]`;
parsing them with the demo expression grammar succeeds with no remaining
tokens; evaluating the produced tree gives 5. -/
theorem c6_demo_end_to_end :
    Compy.lex Demo.lexer 12 "<stdin>" (String.toList "1 * (2 + 3)")
        = some (.ok demoTokens)
      ∧ Demo.run 32 .expr demoTokens = some (.success demoTree [])
      ∧ Demo.eval_expr demoTree = 5 := by
  exact ⟨rfl, rfl, rfl⟩

/-- C7: every parser built from the primitives `token`, `singleton`, `ignore`,
`lazy` and the combinators `sequence_right`, `sequence_left`, `sequence`,
`alt`, `map` only consumes tokens from the front of the stream: whenever it
returns a success, the remaining tokens are a suffix of the input list. -/
theorem c7_success_rest_suffix {T : Type} [DecidableEq T] {α : Type}
    {p : Compy.PFun T α} (hb : Built p) :
    ∀ tokens value rest, p tokens = some (.success value rest) → rest <:+ tokens := by
  induction hb with
  | token type mapper =>
    intro ts v r hp
    match ts with
    | [] => simp [Compy.token] at hp
    | t :: tl =>
      by_cases h : t.type = type
      · simp [Compy.token, h] at hp
        exact hp.2 ▸ List.suffix_cons t tl
      · match tl with
        | [] => simp [Compy.token, h] at hp
        | u :: us => simp [Compy.token, h] at hp
  | singleton type value =>
    intro ts v r hp
    match ts with
    | [] => simp [Compy.singleton] at hp
    | t :: tl =>
      by_cases h : t.type = type
      · simp [Compy.singleton, h] at hp
        exact hp.2 ▸ List.suffix_cons t tl
      · simp [Compy.singleton, h] at hp
  | ignore type =>
    intro ts v r hp
    match ts with
    | [] => simp [Compy.ignore] at hp
    | t :: tl =>
      by_cases h : t.type = type
      · simp [Compy.ignore, h] at hp
        exact hp ▸ List.suffix_cons t tl
      · simp [Compy.ignore, h] at hp
  | lazy fn _ ih =>
    intro ts v r hp
    exact ih ts v r hp
  | sequence_right hbp hbq ihp ihq =>
    rename_i p1 q1
    intro ts v r hp
    simp only [Compy.sequence_right] at hp
    split at hp
    · exact absurd hp (by simp)
    · exact absurd hp (by simp)
    · rename_i x rest1 h1
      exact (ihq rest1 v r hp).trans (ihp ts x rest1 h1)
  | sequence_left hbp hbq ihp ihq =>
    rename_i p1 q1
    intro ts v r hp
    simp only [Compy.sequence_left] at hp
    split at hp
    · exact absurd hp (by simp)
    · exact absurd hp (by simp)
    · rename_i x rest1 h1
      split at hp
      · exact absurd hp (by simp)
      · exact absurd hp (by simp)
      · rename_i y rest2 h2
        simp only [Option.some.injEq, Compy.ParsingResult.success.injEq] at hp
        exact hp.2 ▸ (ihq rest1 y rest2 h2).trans (ihp ts x rest1 h1)
  | sequence hbp hbq ihp ihq =>
    rename_i p1 q1
    intro ts v r hp
    simp only [Compy.sequence] at hp
    split at hp
    · exact absurd hp (by simp)
    · exact absurd hp (by simp)
    · rename_i x rest1 h1
      split at hp
      · exact absurd hp (by simp)
      · exact absurd hp (by simp)
      · rename_i y rest2 h2
        simp only [Option.some.injEq, Compy.ParsingResult.success.injEq] at hp
        exact hp.2 ▸ (ihq rest1 y rest2 h2).trans (ihp ts x rest1 h1)
  | alt hbp hbq ihp ihq =>
    rename_i p1 q1
    intro ts v r hp
    simp only [Compy.alt] at hp
    split at hp
    · exact absurd hp (by simp)
    · rename_i x rest1 h1
      simp only [Option.some.injEq, Compy.ParsingResult.success.injEq] at hp
      exact hp.2 ▸ ihp ts x rest1 h1
    · rename_i e1 g1 h1
      split at hp
      · exact absurd hp (by simp)
      · exact absurd hp (by simp)
      · rename_i y rest2 h2
        simp only [Option.some.injEq, Compy.ParsingResult.success.injEq] at hp
        exact hp.2 ▸ ihq ts y rest2 h2
  | map mapper hbp ih =>
    rename_i p1
    intro ts v r hp
    simp only [Compy.map] at hp
    split at hp
    · exact absurd hp (by simp)
    · exact absurd hp (by simp)
    · rename_i s rest1 h1
      simp only [Option.some.injEq, Compy.ParsingResult.success.injEq] at hp
      exact hp.2 ▸ ih ts s rest1 h1

/-- Witness for C7: a concrete success of `token` whose remaining tokens are a
suffix of the input. -/
theorem c7_success_rest_suffix_witness : [tokC] <:+ [tokA, tokC] :=
  c7_success_rest_suffix (Built.token TT.A (fun s => s)) [tokA, tokC]
    (String.toList "a") [tokC] rfl

/-- The `consume` never lengthens the remaining text. -/
theorem consume_length_le (st : Compy.St) (whole : List Char) :
    (Compy.consume st whole).code.length ≤ st.code.length := by
  simp [Compy.consume]

/-- The `consume` strictly shortens the text for a nonempty match that is no
longer than the text. -/
theorem consume_length_lt (st : Compy.St) (whole : List Char)
    (h1 : 0 < whole.length) (h2 : whole.length ≤ st.code.length) :
    (Compy.consume st whole).code.length < st.code.length := by
  simp [Compy.consume]
  omega

/-- A regex-skip pass never lengthens the remaining text. -/
theorem regexSkipPass_le (skips : List Compy.Regex) (acc : Bool × Compy.St) :
    (Compy.regexSkipPass skips acc).2.code.length ≤ acc.2.code.length := by
  induction skips generalizing acc with
  | nil => simp [Compy.regexSkipPass]
  | cons r rest ih =>
    cases h : r acc.2.code with
    | none => simpa [Compy.regexSkipPass, h] using ih acc
    | some whole =>
      calc (Compy.regexSkipPass (r :: rest) acc).2.code.length
          = (Compy.regexSkipPass rest (true, Compy.consume acc.2 whole)).2.code.length := by
            simp [Compy.regexSkipPass, h]
        _ ≤ (Compy.consume acc.2 whole).code.length := ih _
        _ ≤ acc.2.code.length := consume_length_le acc.2 whole

/-- A string-skip pass never lengthens the remaining text. -/
theorem stringSkipPass_le (skips : List (List Char)) (acc : Bool × Compy.St) :
    (Compy.stringSkipPass skips acc).2.code.length ≤ acc.2.code.length := by
  induction skips generalizing acc with
  | nil => simp [Compy.stringSkipPass]
  | cons s rest ih =>
    by_cases h : s.isPrefixOf acc.2.code
    · calc (Compy.stringSkipPass (s :: rest) acc).2.code.length
          = (Compy.stringSkipPass rest (true, Compy.consume acc.2 s)).2.code.length := by
            simp [Compy.stringSkipPass, h]
        _ ≤ (Compy.consume acc.2 s).code.length := ih _
        _ ≤ acc.2.code.length := consume_length_le acc.2 s
    · simpa [Compy.stringSkipPass, h] using ih acc

/-- Once the matched flag is set it stays set through a regex-skip pass. -/
theorem regexSkipPass_flag (skips : List Compy.Regex) (st : Compy.St) :
    (Compy.regexSkipPass skips (true, st)).1 = true := by
  induction skips generalizing st with
  | nil => rfl
  | cons r rest ih =>
    cases h : r st.code with
    | none => simpa [Compy.regexSkipPass, h] using ih st
    | some whole => simpa [Compy.regexSkipPass, h] using ih _

/-- Once the matched flag is set it stays set through a string-skip pass. -/
theorem stringSkipPass_flag (skips : List (List Char)) (st : Compy.St) :
    (Compy.stringSkipPass skips (true, st)).1 = true := by
  induction skips generalizing st with
  | nil => rfl
  | cons s rest ih =>
    by_cases h : s.isPrefixOf st.code
    · simpa [Compy.stringSkipPass, h] using ih _
    · simpa [Compy.stringSkipPass, h] using ih st

/-- A regex-skip pass that reports no match leaves its accumulator unchanged. -/
theorem regexSkipPass_false (skips : List Compy.Regex) (acc : Bool × Compy.St)
    (h : (Compy.regexSkipPass skips acc).1 = false) :
    Compy.regexSkipPass skips acc = acc := by
  induction skips generalizing acc with
  | nil => rfl
  | cons r rest ih =>
    cases hr : r acc.2.code with
    | none =>
      have h2 : (Compy.regexSkipPass rest acc).1 = false := by
        simpa [Compy.regexSkipPass, hr] using h
      simpa [Compy.regexSkipPass, hr] using ih acc h2
    | some whole =>
      exfalso
      have hfl := regexSkipPass_flag rest (Compy.consume acc.2 whole)
      simp [Compy.regexSkipPass, hr, hfl] at h

/-- A string-skip pass that reports no match leaves its accumulator unchanged. -/
theorem stringSkipPass_false (skips : List (List Char)) (acc : Bool × Compy.St)
    (h : (Compy.stringSkipPass skips acc).1 = false) :
    Compy.stringSkipPass skips acc = acc := by
  induction skips generalizing acc with
  | nil => rfl
  | cons s rest ih =>
    by_cases hs : s.isPrefixOf acc.2.code
    · exfalso
      have hfl := stringSkipPass_flag rest (Compy.consume acc.2 s)
      simp [Compy.stringSkipPass, hs, hfl] at h
    · have h2 : (Compy.stringSkipPass rest acc).1 = false := by
        simpa [Compy.stringSkipPass, hs] using h
      simpa [Compy.stringSkipPass, hs] using ih acc h2

/-- A regex-skip pass over good patterns that starts unmatched and reports a
match strictly shortens the remaining text. -/
theorem regexSkipPass_progress (skips : List Compy.Regex) (st : Compy.St)
    (hG : ∀ r ∈ skips, Compy.GoodRegex r)
    (h : (Compy.regexSkipPass skips (false, st)).1 = true) :
    (Compy.regexSkipPass skips (false, st)).2.code.length < st.code.length := by
  induction skips generalizing st with
  | nil => simp [Compy.regexSkipPass] at h
  | cons r rest ih =>
    cases hr : r st.code with
    | none =>
      have h2 : (Compy.regexSkipPass rest (false, st)).1 = true := by
        simpa [Compy.regexSkipPass, hr] using h
      have := ih st (fun r2 hr2 => hG r2 (by simp [hr2])) h2
      simpa [Compy.regexSkipPass, hr] using this
    | some whole =>
      have hg := hG r (by simp) st.code whole hr
      have hlt : (Compy.consume st whole).code.length < st.code.length :=
        consume_length_lt st whole hg.1 hg.2
      calc (Compy.regexSkipPass (r :: rest) (false, st)).2.code.length
          = (Compy.regexSkipPass rest (true, Compy.consume st whole)).2.code.length := by
            simp [Compy.regexSkipPass, hr]
        _ ≤ (Compy.consume st whole).code.length := regexSkipPass_le _ _
        _ < st.code.length := hlt

/-- A string-skip pass over nonempty literals that starts unmatched and
reports a match strictly shortens the remaining text. -/
theorem stringSkipPass_progress (skips : List (List Char)) (st : Compy.St)
    (hG : ∀ s ∈ skips, s ≠ [])
    (h : (Compy.stringSkipPass skips (false, st)).1 = true) :
    (Compy.stringSkipPass skips (false, st)).2.code.length < st.code.length := by
  induction skips generalizing st with
  | nil => simp [Compy.stringSkipPass] at h
  | cons s rest ih =>
    by_cases hs : s.isPrefixOf st.code
    · have hpre : s <+: st.code := List.isPrefixOf_iff_prefix.mp hs
      have h1 : 0 < s.length := List.length_pos.mpr (hG s (by simp))
      have hlt : (Compy.consume st s).code.length < st.code.length :=
        consume_length_lt st s h1 hpre.length_le
      calc (Compy.stringSkipPass (s :: rest) (false, st)).2.code.length
          = (Compy.stringSkipPass rest (true, Compy.consume st s)).2.code.length := by
            simp [Compy.stringSkipPass, hs]
        _ ≤ (Compy.consume st s).code.length := stringSkipPass_le _ _
        _ < st.code.length := hlt
    · have h2 : (Compy.stringSkipPass rest (false, st)).1 = true := by
        simpa [Compy.stringSkipPass, hs] using h
      have := ih st (fun s2 hs2 => hG s2 (by simp [hs2])) h2
      simpa [Compy.stringSkipPass, hs] using this

/-- A full skip pass never lengthens the remaining text. -/
theorem skipPass_le {T : Type} (L : Compy.Lexer T) (st : Compy.St) :
    (Compy.skipPass L st).2.code.length ≤ st.code.length :=
  le_trans (stringSkipPass_le L.string_skips _)
    (regexSkipPass_le L.regex_skips (false, st))

/-- A full skip pass over good skip rules that reports a match strictly
shortens the remaining text. -/
theorem skipPass_progress {T : Type} (L : Compy.Lexer T) (st : Compy.St)
    (hG1 : ∀ r ∈ L.regex_skips, Compy.GoodRegex r)
    (hG2 : ∀ s ∈ L.string_skips, s ≠ [])
    (h : (Compy.skipPass L st).1 = true) :
    (Compy.skipPass L st).2.code.length < st.code.length := by
  cases hb : (Compy.regexSkipPass L.regex_skips (false, st)).1 with
  | true =>
    have hlt := regexSkipPass_progress L.regex_skips st hG1 hb
    exact lt_of_le_of_lt (stringSkipPass_le L.string_skips _) hlt
  | false =>
    have heq := regexSkipPass_false L.regex_skips (false, st) hb
    have h2 : (Compy.stringSkipPass L.string_skips (false, st)).1 = true := by
      simpa [Compy.skipPass, heq] using h
    have := stringSkipPass_progress L.string_skips st hG2 h2
    simpa [Compy.skipPass, heq] using this

/-- With good skip rules, `_run_skips` returns within `len(code) + 1` passes,
never lengthening the text. -/
theorem runSkips_isSome {T : Type} (L : Compy.Lexer T)
    (hG1 : ∀ r ∈ L.regex_skips, Compy.GoodRegex r)
    (hG2 : ∀ s ∈ L.string_skips, s ≠ []) :
    ∀ fuel st, st.code.length < fuel →
      ∃ st1, Compy.runSkips L fuel st = some st1
        ∧ st1.code.length ≤ st.code.length := by
  intro fuel
  induction fuel with
  | zero => intro st h; omega
  | succ n ih =>
    intro st h
    cases hb : (Compy.skipPass L st).1 with
    | false =>
      refine ⟨(Compy.skipPass L st).2, ?_, skipPass_le L st⟩
      simp [Compy.runSkips, hb]
    | true =>
      have hlt := skipPass_progress L st hG1 hG2 hb
      obtain ⟨st1, hs, hle⟩ := ih (Compy.skipPass L st).2 (by omega)
      exact ⟨st1, by simp [Compy.runSkips, hb, hs], by omega⟩

/-- Inversion for the regex match phase: a produced token comes from some
registered pattern matching the remaining text, its location is the cursor
position, and the new state consumes exactly the matched text. -/
theorem regexPhase_inv {T : Type} (regexes : List (T × Compy.Regex))
    (file : String) (st : Compy.St) (t : Compy.Token T) (st1 : Compy.St)
    (h : Compy.regexPhase regexes file st = some (t, st1)) :
    ∃ r, (t.type, r) ∈ regexes ∧ r st.code = some t.value
      ∧ st1 = Compy.consume st t.value
      ∧ t.location = Compy.Location.mk file st.line st.column := by
  induction regexes with
  | nil => simp [Compy.regexPhase] at h
  | cons hd tl ih =>
    obtain ⟨ty, r⟩ := hd
    cases hr : r st.code with
    | none =>
      simp only [Compy.regexPhase, hr] at h
      obtain ⟨r2, hm, hr2, hst, hloc⟩ := ih h
      exact ⟨r2, by simp [hm], hr2, hst, hloc⟩
    | some whole =>
      simp only [Compy.regexPhase, hr, Option.some.injEq, Prod.mk.injEq] at h
      obtain ⟨h1, h2⟩ := h
      subst h1
      exact ⟨r, by simp, hr, h2.symm, rfl⟩

/-- Inversion for the literal match phase: a produced token is some registered
literal that is an exact prefix of the remaining text. -/
theorem stringPhase_inv {T : Type} (strings : List (T × List Char))
    (file : String) (st : Compy.St) (t : Compy.Token T) (st1 : Compy.St)
    (h : Compy.stringPhase strings file st = some (t, st1)) :
    (t.type, t.value) ∈ strings ∧ t.value.isPrefixOf st.code = true
      ∧ st1 = Compy.consume st t.value
      ∧ t.location = Compy.Location.mk file st.line st.column := by
  induction strings with
  | nil => simp [Compy.stringPhase] at h
  | cons hd tl ih =>
    obtain ⟨ty, s⟩ := hd
    by_cases hs : s.isPrefixOf st.code
    · simp only [Compy.stringPhase, hs, if_true, Option.some.injEq, Prod.mk.injEq] at h
      obtain ⟨h1, h2⟩ := h
      subst h1
      exact ⟨by simp, hs, h2.symm, rfl⟩
    · simp only [Compy.stringPhase, hs, if_false] at h
      obtain ⟨hm, hpre, hst, hloc⟩ := ih h
      exact ⟨by simp [hm], hpre, hst, hloc⟩

/-- With good patterns, a successful regex phase strictly shortens the text. -/
theorem regexPhase_lt {T : Type} (regexes : List (T × Compy.Regex))
    (file : String) (st : Compy.St)
    (hG : ∀ p ∈ regexes, Compy.GoodRegex p.2) (t : Compy.Token T)
    (st1 : Compy.St) (h : Compy.regexPhase regexes file st = some (t, st1)) :
    st1.code.length < st.code.length := by
  obtain ⟨r, hm, hr, hst, _⟩ := regexPhase_inv regexes file st t st1 h
  have hg := hG (t.type, r) hm st.code t.value hr
  rw [hst]
  exact consume_length_lt st t.value hg.1 hg.2

/-- With nonempty literals, a successful literal phase strictly shortens the
text. -/
theorem stringPhase_lt {T : Type} (strings : List (T × List Char))
    (file : String) (st : Compy.St)
    (hG : ∀ p ∈ strings, p.2 ≠ []) (t : Compy.Token T)
    (st1 : Compy.St) (h : Compy.stringPhase strings file st = some (t, st1)) :
    st1.code.length < st.code.length := by
  obtain ⟨hm, hpre, hst, _⟩ := stringPhase_inv strings file st t st1 h
  have h1 : 0 < t.value.length := List.length_pos.mpr (hG (t.type, t.value) hm)
  have h2 := ( List.isPrefixOf_iff_prefix.mp hpre).length_le
  rw [hst]
  exact consume_length_lt st t.value h1 h2

/-- With good patterns and literals, one match phase strictly shortens the
text when it matches, and leaves everything unchanged when it does not. -/
theorem matchStep_progress {T : Type} (L : Compy.Lexer T) (file : String)
    (st : Compy.St) (hG1 : ∀ p ∈ L.regexes, Compy.GoodRegex p.2)
    (hG2 : ∀ p ∈ L.strings, p.2 ≠ []) :
    ((Compy.matchStep L file st).matched = true →
      (Compy.matchStep L file st).st.code.length < st.code.length)
    ∧ ((Compy.matchStep L file st).matched = false →
      Compy.matchStep L file st = Compy.StepOut.mk [] st false) := by
  cases h1 : Compy.regexPhase L.regexes file st with
  | some pr =>
    obtain ⟨t1, st1⟩ := pr
    have l1 := regexPhase_lt L.regexes file st hG1 t1 st1 h1
    cases h2 : Compy.stringPhase L.strings file st1 with
    | some pr2 =>
      obtain ⟨t2, st2⟩ := pr2
      have l2 := stringPhase_lt L.strings file st1 hG2 t2 st2 h2
      constructor
      · intro
        simp only [Compy.matchStep, h1, h2]
        exact lt_trans l2 l1
      · intro hf
        simp [Compy.matchStep, h1, h2] at hf
    | none =>
      constructor
      · intro
        simp only [Compy.matchStep, h1, h2]
        exact l1
      · intro hf
        simp [Compy.matchStep, h1, h2] at hf
  | none =>
    cases h2 : Compy.stringPhase L.strings file st with
    | some pr2 =>
      obtain ⟨t2, st2⟩ := pr2
      have l2 := stringPhase_lt L.strings file st hG2 t2 st2 h2
      constructor
      · intro
        simp only [Compy.matchStep, h1, h2]
        exact l2
      · intro hf
        simp [Compy.matchStep, h1, h2] at hf
    | none =>
      constructor
      · intro ht
        simp [Compy.matchStep, h1, h2] at ht
      · intro
        simp [Compy.matchStep, h1, h2]

/-- With a good configuration, the main lexing loop returns (token list or
lexing error) given fuel exceeding the remaining text's length. -/
theorem lexLoop_isSome {T : Type} (L : Compy.Lexer T) (file : String)
    (hG : Compy.GoodCfg L) :
    ∀ fuel st tokens, st.code.length < fuel →
      (Compy.lexLoop L file fuel st tokens).isSome = true := by
  obtain ⟨hGr, hGs, hGrs, hGss⟩ := hG
  intro fuel
  induction fuel with
  | zero => intro st tokens h; omega
  | succ n ih =>
    intro st tokens h
    cases hemp : st.code.isEmpty with
    | true => simp [Compy.lexLoop, hemp]
    | false =>
      obtain ⟨st1, hs, hle⟩ :=
        runSkips_isSome L hGrs hGss (st.code.length + 1) st (by omega)
      cases hemp1 : st1.code.isEmpty with
      | true => simp [Compy.lexLoop, hemp, hs, hemp1]
      | false =>
        have hm := matchStep_progress L file st1 hGr hGs
        cases hmt : (Compy.matchStep L file st1).matched with
        | true =>
          have hlt := hm.1 hmt
          have hrec := ih (Compy.matchStep L file st1).st
            (tokens ++ (Compy.matchStep L file st1).toks) (by omega)
          simpa [Compy.lexLoop, hemp, hs, hemp1, hmt] using hrec
        | false =>
          simp [Compy.lexLoop, hemp, hs, hemp1, hmt]

/-- C8 (amended): for every lexer configuration whose patterns and skip
patterns can only match nonempty prefixes and whose literals and skip
literals are nonempty, `lex` terminates on every finite input — fuel
`len(input) + 1` suffices for both the skip loop and the main loop — and
returns a token list or a lexing error.  (As stated over *all*
configurations the claim is false: see the counterexample, where a nullable
skip pattern makes `_run_skips` repeat a full pass forever.) -/
theorem c8_lex_terminates {T : Type} (L : Compy.Lexer T) (hG : Compy.GoodCfg L)
    (file : String) (code : List Char) :
    (Compy.lex L (code.length + 1) file code).isSome = true :=
  lexLoop_isSome L file hG (code.length + 1) (Compy.St.mk 1 1 code) []
    (by simp)

/-- The pattern `\d+` matches only nonempty prefixes. -/
theorem goodRegex_digitsPat : Compy.GoodRegex Compy.digitsPat := by
  intro s whole h
  simp only [Compy.digitsPat] at h
  by_cases he : (s.takeWhile Char.isDigit).isEmpty
  · simp [he] at h
  · simp only [he, if_false] at h
    cases h
    constructor
    · have : s.takeWhile Char.isDigit ≠ [] := fun hnil => he (by simp [hnil])
      exact List.length_pos.mpr this
    · exact ( List.takeWhile_prefix Char.isDigit).length_le

/-- The pattern `\s+` matches only nonempty prefixes. -/
theorem goodRegex_spacesPat : Compy.GoodRegex Compy.spacesPat := by
  intro s whole h
  simp only [Compy.spacesPat] at h
  by_cases he : (s.takeWhile Compy.isPySpace).isEmpty
  · simp [he] at h
  · simp only [he, if_false] at h
    cases h
    constructor
    · have : s.takeWhile Compy.isPySpace ≠ [] := fun hnil => he (by simp [hnil])
      exact List.length_pos.mpr this
    · exact ( List.takeWhile_prefix Compy.isPySpace).length_le

/-- The demo lexer's configuration is good: `\d+` and `\s+` match only
nonempty prefixes and all four literals are nonempty. -/
theorem goodCfg_demo : Compy.GoodCfg Demo.lexer := by
  have hr : Demo.lexer.regexes = [(Demo.TokenType.Int, Compy.digitsPat)] := rfl
  have hsk : Demo.lexer.regex_skips = [Compy.spacesPat] := rfl
  refine ⟨?_, ?_, ?_, ?_⟩
  · intro p hp
    rw [hr] at hp
    simp only [List.mem_singleton] at hp
    rw [hp]
    exact goodRegex_digitsPat
  · intro p hp
    have hs : Demo.lexer.strings
        = [(Demo.TokenType.Plus, String.toList "+"),
           (Demo.TokenType.Times, String.toList "*"),
           (Demo.TokenType.LeftParen, String.toList "("),
           (Demo.TokenType.RightParen, String.toList ")")] := rfl
    rw [hs] at hp
    simp only [List.mem_cons, List.not_mem_nil, or_false] at hp
    rcases hp with rfl | rfl | rfl | rfl <;> decide
  · intro r hrk
    rw [hsk] at hrk
    simp only [List.mem_singleton] at hrk
    rw [hrk]
    exact goodRegex_spacesPat
  · intro s hss
    have : Demo.lexer.string_skips = [] := rfl
    rw [this] at hss
    simp at hss

/-- Witness for C8's amended claim: the demo lexer terminates on the demo
input with fuel `length + 1`. -/
theorem c8_lex_terminates_witness :
    (Compy.lex Demo.lexer ((String.toList "1 * (2 + 3)").length + 1) "<stdin>"
      (String.toList "1 * (2 + 3)")).isSome = true :=
  c8_lex_terminates Demo.lexer goodCfg_demo "<stdin>" (String.toList "1 * (2 + 3)")

/-- C8 counterexample: with the registered skip rule `a*` — a pattern that
matches the empty string — lexing `"b"` never returns, whatever the fuel: the
skip pass "matches" the empty prefix without consuming anything, so
`_run_skips` repeats the identical state forever. -/
theorem c8_counterexample : Compy.LexDivergesOn cfg8 "f" ['b'] := by
  intro fuel
  cases fuel with
  | zero => rfl
  | succ n =>
    have hrs : ∀ m, Compy.runSkips cfg8 m (Compy.St.mk 1 1 ['b']) = none := by
      intro m
      induction m with
      | zero => rfl
      | succ k ih =>
        have hstep : Compy.skipPass cfg8 (Compy.St.mk 1 1 ['b'])
            = (true, Compy.St.mk 1 1 ['b']) := rfl
        simp [Compy.runSkips, hstep, ih]
    simp [Compy.lex, Compy.lexLoop, hrs]

/-- The `joinVals` distributes over append. -/
theorem joinVals_append {T : Type} (a b : List (Compy.Token T)) :
    joinVals (a ++ b) = joinVals a ++ joinVals b := by
  induction a with
  | nil => simp [joinVals]
  | cons t tl ih => simp [joinVals, List.append_assoc] at ih ⊢; simp [ih]

/-- When the matched text is a prefix of the remaining text, the remaining
text splits as the match followed by the post-`consume` text. -/
theorem consume_code_decomp (st : Compy.St) (whole : List Char)
    (h : whole <+: st.code) :
    st.code = whole ++ (Compy.consume st whole).code := by
  obtain ⟨rest, hrest⟩ := h
  simp only [Compy.consume]
  rw [← hrest, List.drop_left]

/-- With no skip rules the skip loop returns immediately with the state
unchanged. -/
theorem runSkips_noskips {T : Type} (L : Compy.Lexer T) (h1 : L.regex_skips = [])
    (h2 : L.string_skips = []) (fuel : Nat) (st : Compy.St) :
    Compy.runSkips L (fuel + 1) st = some st := by
  simp [Compy.runSkips, Compy.skipPass, h1, h2, Compy.regexSkipPass,
    Compy.stringSkipPass]

/-- Main-loop invariant for C10: with no skip rules and prefix-valid patterns,
a successful lex's tokens concatenate (after the accumulator) to exactly the
remaining text. -/
theorem lexLoop_concat {T : Type} (L : Compy.Lexer T) (file : String)
    (hV : Compy.ValidRegexes L) (h1 : L.regex_skips = [])
    (h2 : L.string_skips = []) :
    ∀ fuel st acc toks,
      Compy.lexLoop L file fuel st acc = some (.ok toks) →
      joinVals toks = joinVals acc ++ st.code := by
  intro fuel
  induction fuel with
  | zero => intro st acc toks h; simp [Compy.lexLoop] at h
  | succ n ih =>
    intro st acc toks h
    cases hemp : st.code.isEmpty with
    | true =>
      have hnil : st.code = [] := List.isEmpty_iff.mp hemp
      simp only [Compy.lexLoop, hemp, if_true, Option.some.injEq,
        Compy.LexOut.ok.injEq] at h
      subst h
      rw [hnil, List.append_nil]
    | false =>
      simp only [Compy.lexLoop, hemp, Bool.false_eq_true, if_false,
        runSkips_noskips L h1 h2 st.code.length st] at h
      cases hr1 : Compy.regexPhase L.regexes file st with
      | some pr1 =>
        obtain ⟨t1, st1⟩ := pr1
        have hd1 : st.code = t1.value ++ st1.code := by
          obtain ⟨r, hm, hr, hst, _⟩ := regexPhase_inv L.regexes file st t1 st1 hr1
          have hpre : t1.value <+: st.code := hV (t1.type, r) hm st.code t1.value hr
          rw [hst]
          exact consume_code_decomp st t1.value hpre
        cases hr2 : Compy.stringPhase L.strings file st1 with
        | some pr2 =>
          obtain ⟨t2, st2⟩ := pr2
          have hd2 : st1.code = t2.value ++ st2.code := by
            obtain ⟨hm2, hpre2, hst2, _⟩ := stringPhase_inv L.strings file st1 t2 st2 hr2
            rw [hst2]
            exact consume_code_decomp st1 t2.value ( List.isPrefixOf_iff_prefix.mp hpre2)
          simp only [Compy.matchStep, hr1, hr2, if_true] at h
          have hrec := ih st2 (acc ++ [t1, t2]) toks h
          rw [hrec, joinVals_append, hd1, hd2]
          simp [joinVals, List.append_assoc]
        | none =>
          simp only [Compy.matchStep, hr1, hr2, if_true] at h
          have hrec := ih st1 (acc ++ [t1]) toks h
          rw [hrec, joinVals_append, hd1]
          simp [joinVals, List.append_assoc]
      | none =>
        cases hr2 : Compy.stringPhase L.strings file st with
        | some pr2 =>
          obtain ⟨t2, st2⟩ := pr2
          have hd2 : st.code = t2.value ++ st2.code := by
            obtain ⟨hm2, hpre2, hst2, _⟩ := stringPhase_inv L.strings file st t2 st2 hr2
            rw [hst2]
            exact consume_code_decomp st t2.value ( List.isPrefixOf_iff_prefix.mp hpre2)
          simp only [Compy.matchStep, hr1, hr2, if_true] at h
          have hrec := ih st2 (acc ++ [t2]) toks h
          rw [hrec, joinVals_append, hd2]
          simp [joinVals, List.append_assoc]
        | none =>
          simp only [Compy.matchStep, hr1, hr2] at h
          simp at h

/-- C10: for every skip-free lexer (no regex or string skip rules) whose
patterns report only genuine prefixes, if `lex` returns a token list then the
concatenation of the tokens' `value` fields, in output order, is exactly the
source text. -/
theorem c10_lex_concat {T : Type} (L : Compy.Lexer T)
    (hV : Compy.ValidRegexes L) (h1 : L.regex_skips = [])
    (h2 : L.string_skips = []) (fuel : Nat) (file : String) (code : List Char)
    (toks : List (Compy.Token T))
    (h : Compy.lex L fuel file code = some (.ok toks)) :
    joinVals toks = code := by
  have hmain := lexLoop_concat L file hV h1 h2 fuel (Compy.St.mk 1 1 code) [] toks h
  simpa [joinVals] using hmain

/-- The `\d+` reports only genuine prefixes. -/
theorem digitsPat_valid : ∀ s whole, Compy.digitsPat s = some whole → whole <+: s := by
  intro s whole h
  simp only [Compy.digitsPat] at h
  by_cases he : (s.takeWhile Char.isDigit).isEmpty
  · simp [he] at h
  · simp only [he, if_false] at h
    cases h
    exact List.takeWhile_prefix Char.isDigit

/-- The C10 witness configuration has prefix-valid patterns. -/
theorem validRegexes_cfgJoin : Compy.ValidRegexes cfgJoin := by
  intro p hp s whole hw
  have he : cfgJoin.regexes = [(TT.A, Compy.digitsPat)] := rfl
  rw [he] at hp
  simp only [List.mem_singleton] at hp
  rw [hp] at hw
  exact digitsPat_valid s whole hw

/-- Witness for C10: lexing `"1+2"` with the skip-free witness lexer yields
tokens whose values concatenate back to `"1+2"`. -/
theorem c10_lex_concat_witness :
    joinVals
      [Compy.Token.mk TT.A (String.toList "1") (Compy.Location.mk "f" 1 1),
       Compy.Token.mk TT.B (String.toList "+") (Compy.Location.mk "f" 1 2),
       Compy.Token.mk TT.A (String.toList "2") (Compy.Location.mk "f" 1 3)]
      = String.toList "1+2" :=
  c10_lex_concat cfgJoin validRegexes_cfgJoin rfl rfl 4 "f" (String.toList "1+2")
    [Compy.Token.mk TT.A (String.toList "1") (Compy.Location.mk "f" 1 1),
     Compy.Token.mk TT.B (String.toList "+") (Compy.Location.mk "f" 1 2),
     Compy.Token.mk TT.A (String.toList "2") (Compy.Location.mk "f" 1 3)]
    rfl

/-- In the regex loop, the first registered pattern that matches wins. -/
theorem regexPhase_append_first {T : Type} (file : String) (st : Compy.St)
    (type : T) (r : Compy.Regex) (pre suf : List (T × Compy.Regex))
    (whole : List Char) (hr : r st.code = some whole)
    (hpre : ∀ p ∈ pre, p.2 st.code = none) :
    Compy.regexPhase (pre ++ (type, r) :: suf) file st
      = some (Compy.Token.mk type whole (Compy.Location.mk file st.line st.column),
              Compy.consume st whole) := by
  induction pre with
  | nil => simp [Compy.regexPhase, hr]
  | cons hd tl ih =>
    obtain ⟨t0, r0⟩ := hd
    have h0 : r0 st.code = none := hpre (t0, r0) (by simp)
    simp only [List.cons_append, Compy.regexPhase, h0]
    exact ih (fun p hp => hpre p (by simp [hp]))

/-- In the string loop, the first registered literal that is a prefix wins. -/
theorem stringPhase_append_first {T : Type} (file : String) (st : Compy.St)
    (type : T) (s : List Char) (pre suf : List (T × List Char))
    (hs : s.isPrefixOf st.code = true)
    (hpre : ∀ p ∈ pre, p.2.isPrefixOf st.code = false) :
    Compy.stringPhase (pre ++ (type, s) :: suf) file st
      = some (Compy.Token.mk type s (Compy.Location.mk file st.line st.column),
              Compy.consume st s) := by
  induction pre with
  | nil => simp [Compy.stringPhase, hs]
  | cons hd tl ih =>
    obtain ⟨t0, s0⟩ := hd
    have h0 : s0.isPrefixOf st.code = false := hpre (t0, s0) (by simp)
    simp only [List.cons_append, Compy.stringPhase, h0, Bool.false_eq_true, if_false]
    exact ih (fun p hp => hpre p (by simp [hp]))

/-- C3 (amended): in each iteration's match phase, (i) patterns are tried in
registration order and the first one matching the remaining text wins;
(ii) when some pattern matches, the token emitted *at the current position* is
that pattern's token — a literal cannot preempt it — though after it consumes,
the literal loop still runs on the advanced text and may emit a second token
there even if some pattern also matches that position; (iii) only when no
pattern matches the current text does the emitted token come from the first
matching literal, in registration order. -/
theorem c3_match_phase_order {T : Type} (L : Compy.Lexer T) (file : String)
    (st : Compy.St) :
    (∀ type r pre suf whole,
        L.regexes = pre ++ (type, r) :: suf → r st.code = some whole →
        (∀ p ∈ pre, p.2 st.code = none) →
        Compy.regexPhase L.regexes file st
          = some (Compy.Token.mk type whole
              (Compy.Location.mk file st.line st.column), Compy.consume st whole))
    ∧ (∀ t1 st1, Compy.regexPhase L.regexes file st = some (t1, st1) →
        (Compy.matchStep L file st).toks.head? = some t1
          ∧ (Compy.matchStep L file st).matched = true)
    ∧ (Compy.regexPhase L.regexes file st = none →
        ∀ type s pre suf,
          L.strings = pre ++ (type, s) :: suf → s.isPrefixOf st.code = true →
          (∀ p ∈ pre, p.2.isPrefixOf st.code = false) →
          (Compy.matchStep L file st).toks
            = [Compy.Token.mk type s (Compy.Location.mk file st.line st.column)]) := by
  refine ⟨?_, ?_, ?_⟩
  · intro type r pre suf whole hreg hr hpre
    rw [hreg]
    exact regexPhase_append_first file st type r pre suf whole hr hpre
  · intro t1 st1 h
    cases h2 : Compy.stringPhase L.strings file st1 with
    | some pr2 => simp [Compy.matchStep, h, h2]
    | none => simp [Compy.matchStep, h, h2]
  · intro hn type s pre suf hstr hs hpre
    have h2 : Compy.stringPhase L.strings file st
        = some (Compy.Token.mk type s (Compy.Location.mk file st.line st.column),
                Compy.consume st s) := by
      rw [hstr]
      exact stringPhase_append_first file st type s pre suf hs hpre
    simp [Compy.matchStep, hn, h2]

/-- Witness for C3's amended claim: on `"a1"` with the counterexample lexer,
the pattern phase emits the first pattern's token at the current position. -/
theorem c3_match_phase_order_witness :
    Compy.regexPhase cfg3.regexes "f" (Compy.St.mk 1 1 (String.toList "a1"))
      = some (Compy.Token.mk TT.A (String.toList "a") (Compy.Location.mk "f" 1 1),
              Compy.consume (Compy.St.mk 1 1 (String.toList "a1"))
                (String.toList "a")) :=
  (c3_match_phase_order cfg3 "f" (Compy.St.mk 1 1 (String.toList "a1"))).1
    TT.A patA [] [(TT.B, Compy.digitsPat)] (String.toList "a") rfl rfl
    (by simp)
